import Mathlib

/- Verification of the DSConvE training and evaluation code (model.py, train.py).

   Shallow embedding conventions: tensors are nested lists; float values are
   modelled as rationals (ℚ) where the code only does field arithmetic, so that
   concrete instances evaluate, and as real numbers (ℝ) where exp/log/sigmoid
   appear.  Fallible lookups return Option. -/

/-! ## Loss (train.py, StableBCELoss) -/

/-- torch clamp with a lower bound only: input.clamp(min=c). -/
noncomputable def clampMin (x c : ℝ) : ℝ := max x c

/-- Per-element loss of StableBCELoss.forward (train.py line 29-30):
    neg_abs = -input.abs(); input.clamp(min=0) - input*target + (1 + neg_abs.exp()).log(). -/
noncomputable def stableBCEElem (x t : ℝ) : ℝ :=
  clampMin x 0 - x * t + Real.log (1 + Real.exp (-|x|))

/-- Elementwise combination of two 2-D tensors of matching shape. -/
noncomputable def zipWith2d (f : ℝ → ℝ → ℝ) (a b : List (List ℝ)) : List (List ℝ) :=
  List.zipWith (List.zipWith f) a b

/-- torch Tensor.mean(): sum of all elements divided by the number of elements. -/
noncomputable def tensorMean (m : List (List ℝ)) : ℝ := m.flatten.sum / m.flatten.length

/-- StableBCELoss.forward (train.py lines 28-31): elementwise stable loss, then mean. -/
noncomputable def stableBCELoss (input target : List (List ℝ)) : ℝ :=
  tensorMean (zipWith2d stableBCEElem input target)

/-- Element access with defaults, as used to state claims about 2-D tensors. -/
noncomputable def getD2 (m : List (List ℝ)) (i j : ℕ) : ℝ := (m.getD i []).getD j 0

/-- Modelled from the spec: sigmoid, as applied by F.sigmoid in DSConvE.test
    (model.py line 69). -/
noncomputable def sigmoid (x : ℝ) : ℝ := 1 / (1 + Real.exp (-x))

/-- Modelled from the spec: the direct (naive) sigmoid cross-entropy
    -t*log(sigmoid x) - (1-t)*log(1 - sigmoid x). -/
noncomputable def naiveBCEElem (x t : ℝ) : ℝ :=
  -(t * Real.log (sigmoid x)) - (1 - t) * Real.log (1 - sigmoid x)

/-! ## Label smoothing (train.py lines 50-52) -/

/-- One row of y_multihot after zero_() and scatter_(1, os, 1): value 1 at every
    true-object index, 0 elsewhere (train.py lines 50-51). -/
def multiHot (numE : ℕ) (os : Finset ℕ) : List ℚ :=
  (List.range numE).map (fun j => if j ∈ os then 1 else 0)

/-- y_smooth = (1 - label_smooth) * y_multihot + label_smooth / num_entities
    (train.py line 52), applied elementwise to one row. -/
def labelSmooth (eps : ℚ) (numE : ℕ) (row : List ℚ) : List ℚ :=
  row.map (fun v => (1 - eps) * v + eps / numE)

/-- The smoothed target row built by train() for one batch element. -/
def ySmooth (eps : ℚ) (numE : ℕ) (os : Finset ℕ) : List ℚ :=
  labelSmooth eps numE (multiHot numE os)

/-! ## Moving-average loss (train.py lines 40, 62-65) -/

/-- One update of moving_loss (train.py lines 62-65): the code re-seeds whenever
    the current value compares equal to 0. -/
def movingStep (avg L : ℚ) : ℚ := if avg = 0 then L else avg * (9/10) + L * (1/10)

/-- moving_loss after folding the per-batch losses of one epoch, starting from
    the initial value 0 (train.py line 40). -/
def movingLoss (losses : List ℚ) : ℚ := losses.foldl movingStep 0

/-! ## MR / MRR aggregation (train.py lines 91-93) -/

/-- torch mean over a 1-D tensor: sum / length. -/
def tmean (l : List ℚ) : ℚ := l.sum / l.length

/-- mr = ranks_t.mean() (train.py line 92). -/
def validMR (ranks : List ℚ) : ℚ := tmean ranks

/-- mrr = (1 / ranks_t).mean() (train.py line 93). -/
def validMRR (ranks : List ℚ) : ℚ := tmean (ranks.map (fun r => 1 / r))

/-! ## Embedding lookup (model.py lines 38-39, 56-57) -/

/-- nn.Embedding lookup: the weight matrix has one row per index; an
    out-of-range index raises (modelled as none), it never wraps. -/
noncomputable def embLookup (weight : List (List ℝ)) (i : ℕ) : Option (List ℝ) := weight[i]?

/-! ## Helper lemmas -/

theorem list_sum_map_range (f : ℕ → ℚ) (n : ℕ) :
    ((List.range n).map f).sum = ∑ j ∈ Finset.range n, f j := by
  induction n with
  | zero => simp
  | succ n ih => rw [List.range_succ, List.map_append, List.sum_append,
      Finset.sum_range_succ, ih]; simp

/-- C3: for a batch element with k true objects among num_entities, the smoothed
    target is ε/num_entities at every non-true index, (1-ε) + ε/num_entities at
    every true index, and sums to k*(1-ε) + ε. -/
theorem ySmooth_values_and_sum (eps : ℚ) (numE : ℕ) (os : Finset ℕ)
    (hos : os ⊆ Finset.range numE) (hpos : 0 < numE) :
    (∀ j < numE, j ∉ os → (ySmooth eps numE os).getD j 0 = eps / numE) ∧
    (∀ j < numE, j ∈ os → (ySmooth eps numE os).getD j 0 = (1 - eps) + eps / numE) ∧
    (ySmooth eps numE os).sum = os.card * (1 - eps) + eps := by
  have hlen : (ySmooth eps numE os).length = numE := by
    simp [ySmooth, labelSmooth, multiHot]
  have hget : ∀ j, j < numE → (ySmooth eps numE os).getD j 0 =
      (1 - eps) * (if j ∈ os then 1 else 0) + eps / numE := by
    intro j hj
    have hj' : j < (ySmooth eps numE os).length := by rw [hlen]; exact hj
    rw [List.getD_eq_getElem _ _ hj']
    simp [ySmooth, labelSmooth, multiHot, List.getElem_map, List.getElem_range]
  refine ⟨?_, ?_, ?_⟩
  · intro j hj hjo
    rw [hget j hj, if_neg hjo]; ring
  · intro j hj hjo
    rw [hget j hj, if_pos hjo]; ring
  · have : (ySmooth eps numE os).sum =
        ∑ j ∈ Finset.range numE, ((1 - eps) * (if j ∈ os then 1 else 0) + eps / numE) := by
      rw [show ySmooth eps numE os =
        (List.range numE).map (fun j => (1 - eps) * (if j ∈ os then 1 else 0) + eps / numE) by
          simp [ySmooth, labelSmooth, multiHot, List.map_map]]
      exact list_sum_map_range _ _
    rw [this, Finset.sum_add_distrib]
    have h1 : ∑ j ∈ Finset.range numE, (1 - eps) * (if j ∈ os then (1:ℚ) else 0) =
        (1 - eps) * os.card := by
      rw [← Finset.mul_sum]
      congr 1
      rw [Finset.sum_ite_mem, Finset.inter_eq_right.mpr hos]
      simp
    have h2 : ∑ _j ∈ Finset.range numE, eps / (numE : ℚ) = eps := by
      rw [Finset.sum_const, Finset.card_range, nsmul_eq_mul]
      field_simp
    rw [h1, h2]; ring

/-- C3 witness: numE = 4, os = {1, 3}, ε = 1/10, checked at indices 0 and 1. -/
theorem ySmooth_values_and_sum_witness :
    (ySmooth (1/10) 4 {1, 3}).getD 0 0 = (1/10) / 4 ∧
    (ySmooth (1/10) 4 {1, 3}).getD 1 0 = (1 - 1/10) + (1/10) / 4 ∧
    (ySmooth (1/10) 4 {1, 3}).sum = ({1, 3} : Finset ℕ).card * (1 - 1/10) + 1/10 := by
  obtain ⟨h1, h2, h3⟩ := ySmooth_values_and_sum (1/10) 4 {1, 3} (by decide) (by decide)
  exact ⟨h1 0 (by decide) (by decide), h2 1 (by decide) (by decide), h3⟩

/-- C4 counterexample: with observed losses L0 = 0 and L1 = 5, the code re-seeds
    (moving_loss == 0 holds again after the first batch), so the second update is
    not avg*0.9 + L*0.1: the recorded average is 5, the claimed formula gives 1/2. -/
theorem movingLoss_counterexample :
    ¬ (movingLoss [0, 5] = movingLoss [0] * (9/10) + 5 * (1/10)) := by
  norm_num [movingLoss, movingStep]

/-- C4 amended: the first observed loss seeds the average exactly (avg = L0
    after the first batch), and each later batch updates
    avg = avg*0.9 + L*0.1 whenever the running average is nonzero; whenever the
    running average equals 0 (e.g. after a first loss of exactly 0) the code
    re-seeds avg = L instead. -/
theorem movingLoss_update (l : List ℚ) (L : ℚ) :
    movingLoss [L] = L ∧
    movingLoss (l ++ [L]) =
      (if movingLoss l = 0 then L else movingLoss l * (9/10) + L * (1/10)) := by
  constructor
  · simp [movingLoss, movingStep]
  · simp [movingLoss, List.foldl_append, movingStep]

/-- C6: the evaluator reports MR as the arithmetic mean of the collected ranks
    and MRR as the arithmetic mean of their reciprocals; for ranks [1, 2, 4]
    this gives MR = 7/3 and MRR = 7/12. -/
theorem validMR_validMRR_eq_mean (ranks : List ℚ) (_hne : ranks ≠ []) :
    validMR ranks = ranks.sum / ranks.length ∧
    validMRR ranks = (ranks.map (fun r => 1 / r)).sum / ranks.length ∧
    validMR [1, 2, 4] = 7/3 ∧ validMRR [1, 2, 4] = 7/12 := by
  refine ⟨rfl, ?_, by norm_num [validMR, tmean], by norm_num [validMRR, tmean]⟩
  simp [validMRR, tmean]

/-- C6 witness: instantiated at the nonempty rank list [1, 2, 4]. -/
theorem validMR_validMRR_eq_mean_witness :
    validMR [1, 2, 4] = ([1, 2, 4] : List ℚ).sum / ([1, 2, 4] : List ℚ).length ∧
    validMR [1, 2, 4] = 7/3 ∧ validMRR [1, 2, 4] = 7/12 := by
  obtain ⟨h1, _, h3, h4⟩ := validMR_validMRR_eq_mean [1, 2, 4] (by decide)
  exact ⟨h1, h3, h4⟩

/-- C9: for a weight matrix with num_entities rows of length H*W, lookup of any
    in-range index returns a vector of length exactly H*W, and lookup of any
    out-of-range index fails (returns none) rather than wrapping. -/
theorem embLookup_shape (weight : List (List ℝ)) (numE h w : ℕ)
    (hlen : weight.length = numE) (hrow : ∀ row ∈ weight, row.length = h * w) :
    (∀ i < numE, ∃ v, embLookup weight i = some v ∧ v.length = h * w) ∧
    (∀ i, numE ≤ i → embLookup weight i = none) := by
  constructor
  · intro i hi
    have hi' : i < weight.length := by rw [hlen]; exact hi
    refine ⟨weight[i], ?_, hrow _ (weight.getElem_mem hi')⟩
    simp [embLookup, List.getElem?_eq_getElem hi']
  · intro i hi
    have : weight.length ≤ i := by rw [hlen]; exact hi
    simp [embLookup, List.getElem?_eq_none this]

/-- C9 witness: a 2-entity store with H = 1, W = 2, looked up at indices 1 and 5. -/
theorem embLookup_shape_witness :
    (∃ v, embLookup [[0, 0], [1, 3]] 1 = some v ∧ v.length = 1 * 2) ∧
    embLookup [[0, 0], [1, 3]] 5 = none := by
  obtain ⟨h1, h2⟩ := embLookup_shape [[0, 0], [1, 3]] 2 1 2 (by simp) (by simp)
  exact ⟨h1 1 (by norm_num), h2 5 (by norm_num)⟩

/-! ## Rank computation (train.py lines 85-89)

    The evaluator takes topk over the full score vector (k = num_entities), i.e.
    all indices in descending score order, and records the position of the true
    object o in that order, plus 1.  torch.topk sorts descending; exact ties are
    kept in ascending index order (the deterministic stable tie-break). -/

/-- The order in which torch.topk lists index i before index j: strictly larger
    score first, ties by ascending index. -/
def topkRel {α : Type} [LinearOrder α] [Inhabited α] (s : List α) (i j : ℕ) : Prop :=
  s.getD j default < s.getD i default ∨ (s.getD i default = s.getD j default ∧ i ≤ j)

instance topkRelDecidable {α : Type} [LinearOrder α] [Inhabited α] (s : List α) :
    DecidableRel (topkRel s) := fun _ _ =>
  inferInstanceAs (Decidable (_ ∨ _))

instance topkRelTotal {α : Type} [LinearOrder α] [Inhabited α] (s : List α) :
    IsTotal ℕ (topkRel s) := by
  constructor
  intro i j
  rcases lt_trichotomy (s.getD i default) (s.getD j default) with h | h | h
  · exact Or.inr (Or.inl h)
  · rcases Nat.le_total i j with hij | hij
    · exact Or.inl (Or.inr ⟨h, hij⟩)
    · exact Or.inr (Or.inr ⟨h.symm, hij⟩)
  · exact Or.inl (Or.inl h)

instance topkRelTrans {α : Type} [LinearOrder α] [Inhabited α] (s : List α) :
    IsTrans ℕ (topkRel s) := by
  constructor
  intro i j k hij hjk
  rcases hij with h1 | ⟨h1, h1'⟩ <;> rcases hjk with h2 | ⟨h2, h2'⟩
  · exact Or.inl (h2.trans h1)
  · exact Or.inl (h2 ▸ h1)
  · exact Or.inl (lt_of_lt_of_le h2 (le_of_eq h1.symm))
  · exact Or.inr ⟨h1.trans h2, h1'.trans h2'⟩

theorem topkRel_antisymm {α : Type} [LinearOrder α] [Inhabited α] (s : List α)
    {i j : ℕ} (hij : topkRel s i j) (hji : topkRel s j i) : i = j := by
  rcases hij with h1 | ⟨h1, h1'⟩ <;> rcases hji with h2 | ⟨h2, h2'⟩
  · exact absurd (h1.trans h2) (lt_irrefl _)
  · exact absurd h1 (h2 ▸ lt_irrefl _)
  · exact absurd h2 (h1 ▸ lt_irrefl _)
  · exact Nat.le_antisymm h1' h2'

/-- top_indices = output[i].topk(num_entities).indices (train.py line 86): every
    entity index, in descending score order. -/
def topIndices {α : Type} [LinearOrder α] [Inhabited α] (s : List α) : List ℕ :=
  List.insertionSort (topkRel s) (List.range s.length)

/-- The rank recorded for true object o (train.py lines 88-89): the position of
    o in top_indices, found by (top_indices == o).max(dim=0), plus 1. -/
def evalRank {α : Type} [LinearOrder α] [Inhabited α] (s : List α) (o : ℕ) : ℕ :=
  (topIndices s).indexOf o + 1

/-- In a list sorted by the topk order, with no duplicates, the position of a
    member o is the number of entries ordered strictly before o. -/
theorem sorted_indexOf_eq_countP {α : Type} [LinearOrder α] [Inhabited α] (s : List α)
    (o : ℕ) :
    ∀ (l : List ℕ), l.Sorted (topkRel s) → l.Nodup → o ∈ l →
      l.indexOf o = l.countP (fun j => decide (topkRel s j o ∧ j ≠ o)) := by
  intro l
  induction l with
  | nil => intro _ _ h; exact absurd h (List.not_mem_nil o)
  | cons a t ih =>
    intro hs hn hm
    have hs' := (List.sorted_cons.mp hs)
    have hn' := (List.nodup_cons.mp hn)
    by_cases hao : a = o
    · subst hao
      rw [List.indexOf_cons_self]
      rw [List.countP_cons]
      have hpa : ¬ (topkRel s a a ∧ a ≠ a) := by simp
      rw [List.countP_eq_zero.mpr ?_]
      · simp [hpa]
      · intro j hj
        simp only [decide_eq_true_eq, not_and, ne_eq, Decidable.not_not]
        intro hrel
        exact (topkRel_antisymm s hrel (hs'.1 j hj))
    · have hmo : o ∈ t := by
        rcases List.mem_cons.mp hm with h | h
        · exact absurd h.symm hao
        · exact h
      rw [List.indexOf_cons_ne t (show a ≠ o from hao)]
      rw [List.countP_cons]
      have hpa : (topkRel s a o ∧ a ≠ o) := ⟨hs'.1 o hmo, hao⟩
      rw [ih hs'.2 hn'.2 hmo]
      simp [hpa]

theorem countP_or_disjoint (p q : ℕ → Bool) (h : ∀ j, ¬(p j = true ∧ q j = true)) :
    ∀ l : List ℕ, l.countP (fun j => p j || q j) = l.countP p + l.countP q := by
  intro l
  induction l with
  | nil => rfl
  | cons a t iht =>
    rw [List.countP_cons, List.countP_cons, List.countP_cons, iht]
    cases hpa : p a <;> cases hqa : q a
    · simp [hpa, hqa]
    · simp [hpa, hqa]
      omega
    · simp [hpa, hqa]
      omega
    · exact absurd ⟨hpa, hqa⟩ (h a)

/-- Generic characterization of the recorded rank: one plus the number of
    strictly higher-scored indices plus the number of equal-scored indices that
    come first in the tie order. -/
theorem evalRank_count {α : Type} [LinearOrder α] [Inhabited α]
    (s : List α) (o : ℕ) (ho : o < s.length) :
    evalRank s o = 1 +
      (((List.range s.length).filter
          (fun j => s.getD o default < s.getD j default)).length +
       ((List.range s.length).filter
          (fun j => s.getD j default = s.getD o default ∧ j < o)).length) := by
  have hperm := List.perm_insertionSort (topkRel s) (List.range s.length)
  have hsorted := List.sorted_insertionSort (topkRel s) (List.range s.length)
  have hnodup : (topIndices s).Nodup := hperm.nodup_iff.mpr (List.nodup_range _)
  have hmem : o ∈ topIndices s := by
    simp only [topIndices, List.mem_insertionSort]
    exact List.mem_range.mpr ho
  have h1 : evalRank s o =
      (topIndices s).countP (fun j => decide (topkRel s j o ∧ j ≠ o)) + 1 := by
    rw [evalRank, sorted_indexOf_eq_countP s o (topIndices s) hsorted hnodup hmem]
  have h2 : (topIndices s).countP (fun j => decide (topkRel s j o ∧ j ≠ o)) =
      (List.range s.length).countP (fun j => decide (topkRel s j o ∧ j ≠ o)) := by
    simp only [topIndices]
    exact hperm.countP_eq _
  have hsplit : ∀ j : ℕ, (topkRel s j o ∧ j ≠ o) ↔
      (s.getD o default < s.getD j default ∨ (s.getD j default = s.getD o default ∧ j < o)) := by
    intro j
    simp only [topkRel]
    constructor
    · rintro ⟨h | ⟨hb, hle⟩, hne⟩
      · exact Or.inl h
      · exact Or.inr ⟨hb, lt_of_le_of_ne hle hne⟩
    · rintro (h | ⟨hb, hlt⟩)
      · refine ⟨Or.inl h, ?_⟩
        rintro rfl
        exact lt_irrefl _ h
      · exact ⟨Or.inr ⟨hb, le_of_lt hlt⟩, Nat.ne_of_lt hlt⟩
  have h3 : (List.range s.length).countP (fun j => decide (topkRel s j o ∧ j ≠ o)) =
      (List.range s.length).countP (fun j =>
        decide (s.getD o default < s.getD j default) || decide (s.getD j default = s.getD o default ∧ j < o)) := by
    apply List.countP_congr
    intro j _
    simp only [decide_eq_true_eq, Bool.or_eq_true]
    exact hsplit j
  have h4 := countP_or_disjoint
      (fun j => decide (s.getD o default < s.getD j default))
      (fun j => decide (s.getD j default = s.getD o default ∧ j < o))
      (by
        intro j hj
        obtain ⟨hp, hq⟩ := hj
        have hp' := of_decide_eq_true hp
        obtain ⟨heq, _⟩ := of_decide_eq_true hq
        rw [heq] at hp'
        exact lt_irrefl _ hp')
      (List.range s.length)
  rw [h1, h2, h3, h4, List.countP_eq_length_filter, List.countP_eq_length_filter]
  omega

/-- C2 counterexample: on the tied score vector [5, 5] with true object 1, the
    evaluator records rank 2 (index 0 is listed first among the tie by topk),
    while 1 + count(scores > score[1]) = 1. -/
theorem evalRank_counterexample :
    evalRank ([5, 5] : List ℚ) 1 ≠
      1 + ((List.range ([5, 5] : List ℚ).length).filter
        (fun j => ([5, 5] : List ℚ).getD 1 0 < ([5, 5] : List ℚ).getD j 0)).length := by
  decide

/-- C2 amended: the recorded rank equals 1 + count(scores > score[o]) +
    count(equal-scored entities with smaller index): torch.topk orders ties by
    ascending index (the deterministic tie-break), so a tied competitor listed
    before the true object also pushes its rank up.  Whenever score[o] is not
    tied the second count is the claimed formula's 0. -/
theorem evalRank_eq_count (s : List ℚ) (o : ℕ) (ho : o < s.length) :
    evalRank s o = 1 +
      (((List.range s.length).filter (fun j => s.getD o 0 < s.getD j 0)).length +
       ((List.range s.length).filter (fun j => s.getD j 0 = s.getD o 0 ∧ j < o)).length) :=
  evalRank_count s o ho

/-- C2 witness: instantiated at the score vector [5, 5] and true object 1. -/
theorem evalRank_eq_count_witness :
    evalRank ([5, 5] : List ℚ) 1 = 1 +
      (((List.range ([5, 5] : List ℚ).length).filter
          (fun j => ([5, 5] : List ℚ).getD 1 0 < ([5, 5] : List ℚ).getD j 0)).length +
       ((List.range ([5, 5] : List ℚ).length).filter
          (fun j => ([5, 5] : List ℚ).getD j 0 = ([5, 5] : List ℚ).getD 1 0 ∧ j < 1)).length) :=
  evalRank_eq_count [5, 5] 1 (by decide)

/-- The sigmoid applied by DSConvE.test is strictly increasing. -/
theorem sigmoid_strictMono : StrictMono sigmoid := by
  intro a b hab
  unfold sigmoid
  have h1 : (0:ℝ) < 1 + Real.exp (-b) := by positivity
  apply one_div_lt_one_div_of_lt h1
  have h2 : Real.exp (-b) < Real.exp (-a) := Real.exp_lt_exp.mpr (neg_lt_neg hab)
  linarith

/-- C10: because sigmoid is strictly increasing, the rank the evaluator computes
    from the sigmoid scores of DSConvE.test equals the rank computed from the
    raw logits of DSConvE.forward, for every score vector and true object. -/
theorem evalRank_map_sigmoid (s : List ℝ) (o : ℕ) (ho : o < s.length) :
    evalRank (s.map sigmoid) o = evalRank s o := by
  have hlen : (s.map sigmoid).length = s.length := List.length_map s sigmoid
  have ho' : o < (s.map sigmoid).length := by rw [hlen]; exact ho
  rw [evalRank_count (s.map sigmoid) o ho', evalRank_count s o ho, hlen]
  have hget : ∀ j, j < s.length →
      (s.map sigmoid).getD j default = sigmoid (s.getD j default) := by
    intro j hj
    have hj' : j < (s.map sigmoid).length := by rw [hlen]; exact hj
    rw [List.getD_eq_getElem _ _ hj', List.getD_eq_getElem _ _ hj, List.getElem_map]
  have hf1 : (List.range s.length).filter
        (fun j => (s.map sigmoid).getD o default < (s.map sigmoid).getD j default) =
      (List.range s.length).filter (fun j => s.getD o default < s.getD j default) := by
    apply List.filter_congr
    intro j hj
    have hj' := List.mem_range.mp hj
    rw [hget j hj', hget o ho]
    exact decide_eq_decide.mpr sigmoid_strictMono.lt_iff_lt
  have hf2 : (List.range s.length).filter
        (fun j => (s.map sigmoid).getD j default = (s.map sigmoid).getD o default ∧ j < o) =
      (List.range s.length).filter (fun j => s.getD j default = s.getD o default ∧ j < o) := by
    apply List.filter_congr
    intro j hj
    have hj' := List.mem_range.mp hj
    rw [hget j hj', hget o ho]
    exact decide_eq_decide.mpr
      (and_congr_left (fun _ => sigmoid_strictMono.injective.eq_iff))
  rw [hf1, hf2]

/-- C10 witness: instantiated at the logit vector [0, 1] and true object 0. -/
theorem evalRank_map_sigmoid_witness :
    evalRank ([(0:ℝ), 1].map sigmoid) 0 = evalRank [(0:ℝ), 1] 0 :=
  evalRank_map_sigmoid [0, 1] 0 (by simp)

/-! ## C1: the loss is the mean of the per-element formula -/

theorem zipWith_sum_getD (f : ℝ → ℝ → ℝ) :
    ∀ (N : ℕ) (r t : List ℝ), r.length = N → t.length = N →
      (List.zipWith f r t).sum = ∑ j ∈ Finset.range N, f (r.getD j 0) (t.getD j 0) := by
  intro N
  induction N with
  | zero =>
    intro r t hr ht
    rw [List.length_eq_zero.mp hr, List.length_eq_zero.mp ht]
    simp
  | succ N ih =>
    intro r t hr ht
    cases r with
    | nil => simp at hr
    | cons a r' =>
      cases t with
      | nil => simp at ht
      | cons b t' =>
        have hr' : r'.length = N := by simpa using hr
        have ht' : t'.length = N := by simpa using ht
        rw [List.zipWith_cons_cons, List.sum_cons, ih r' t' hr' ht',
          Finset.sum_range_succ']
        simp [List.getD_cons_succ, List.getD_cons_zero]
        ring

theorem zipWith2d_flatten_sum (f : ℝ → ℝ → ℝ) :
    ∀ (B : ℕ) (a b : List (List ℝ)) (N : ℕ), a.length = B → b.length = B →
      (∀ r ∈ a, r.length = N) → (∀ r ∈ b, r.length = N) →
      (zipWith2d f a b).flatten.sum =
        ∑ i ∈ Finset.range B, ∑ j ∈ Finset.range N, f (getD2 a i j) (getD2 b i j) := by
  intro B
  induction B with
  | zero =>
    intro a b N ha hb _ _
    rw [List.length_eq_zero.mp ha, List.length_eq_zero.mp hb]
    simp [zipWith2d]
  | succ B ih =>
    intro a b N ha hb hra hrb
    cases a with
    | nil => simp at ha
    | cons ra a' =>
      cases b with
      | nil => simp at hb
      | cons rb b' =>
        have ha' : a'.length = B := by simpa using ha
        have hb' : b'.length = B := by simpa using hb
        have hra' : ∀ r ∈ a', r.length = N := fun r hr => hra r (List.mem_cons_of_mem _ hr)
        have hrb' : ∀ r ∈ b', r.length = N := fun r hr => hrb r (List.mem_cons_of_mem _ hr)
        have hha : ra.length = N := hra ra (List.mem_cons_self _ _)
        have hhb : rb.length = N := hrb rb (List.mem_cons_self _ _)
        rw [show zipWith2d f (ra :: a') (rb :: b') =
            List.zipWith f ra rb :: zipWith2d f a' b' from rfl]
        rw [List.flatten_cons, List.sum_append, ih a' b' N ha' hb' hra' hrb',
          zipWith_sum_getD f N ra rb hha hhb, Finset.sum_range_succ']
        have hz : ∀ i j : ℕ, getD2 (ra :: a') (i + 1) j = getD2 a' i j := by
          intro i j
          simp [getD2, List.getD_cons_succ]
        have hz' : ∀ i j : ℕ, getD2 (rb :: b') (i + 1) j = getD2 b' i j := by
          intro i j
          simp [getD2, List.getD_cons_succ]
        have h0 : ∀ j : ℕ, getD2 (ra :: a') 0 j = ra.getD j 0 := by
          intro j
          simp [getD2, List.getD_cons_zero]
        have h0' : ∀ j : ℕ, getD2 (rb :: b') 0 j = rb.getD j 0 := by
          intro j
          simp [getD2, List.getD_cons_zero]
        simp only [hz, hz', h0, h0']
        ring

theorem zipWith2d_flatten_length (f : ℝ → ℝ → ℝ) :
    ∀ (B : ℕ) (a b : List (List ℝ)) (N : ℕ), a.length = B → b.length = B →
      (∀ r ∈ a, r.length = N) → (∀ r ∈ b, r.length = N) →
      (zipWith2d f a b).flatten.length = B * N := by
  intro B
  induction B with
  | zero =>
    intro a b N ha hb _ _
    rw [List.length_eq_zero.mp ha, List.length_eq_zero.mp hb]
    simp [zipWith2d]
  | succ B ih =>
    intro a b N ha hb hra hrb
    cases a with
    | nil => simp at ha
    | cons ra a' =>
      cases b with
      | nil => simp at hb
      | cons rb b' =>
        have ha' : a'.length = B := by simpa using ha
        have hb' : b'.length = B := by simpa using hb
        have hra' : ∀ r ∈ a', r.length = N := fun r hr => hra r (List.mem_cons_of_mem _ hr)
        have hrb' : ∀ r ∈ b', r.length = N := fun r hr => hrb r (List.mem_cons_of_mem _ hr)
        have hha : ra.length = N := hra ra (List.mem_cons_self _ _)
        have hhb : rb.length = N := hrb rb (List.mem_cons_self _ _)
        rw [show zipWith2d f (ra :: a') (rb :: b') =
            List.zipWith f ra rb :: zipWith2d f a' b' from rfl]
        rw [List.flatten_cons, List.length_append, ih a' b' N ha' hb' hra' hrb']
        rw [List.length_zipWith, hha, hhb, min_self, Nat.succ_mul]
        omega

/-- C1: the training loss equals, for logit and target matrices of shape
    (batch, num_entities), the mean over all batch*num_entities elements of
    max(x,0) - x*t + log(1+exp(-|x|)). -/
theorem stableBCELoss_eq_mean (input target : List (List ℝ)) (B N : ℕ)
    (hB : input.length = B) (hB' : target.length = B)
    (hN : ∀ r ∈ input, r.length = N) (hN' : ∀ r ∈ target, r.length = N) :
    stableBCELoss input target =
      (∑ i ∈ Finset.range B, ∑ j ∈ Finset.range N,
        (max (getD2 input i j) 0 - getD2 input i j * getD2 target i j
          + Real.log (1 + Real.exp (-|getD2 input i j|)))) / (B * N) := by
  rw [stableBCELoss, tensorMean,
    zipWith2d_flatten_sum stableBCEElem B input target N hB hB' hN hN',
    zipWith2d_flatten_length stableBCEElem B input target N hB hB' hN hN']
  simp only [stableBCEElem, clampMin]
  push_cast
  rfl

/-- C1 witness: a single batch element with two entities. -/
theorem stableBCELoss_eq_mean_witness :
    stableBCELoss [[1, -2]] [[1, 0]] =
      (∑ i ∈ Finset.range 1, ∑ j ∈ Finset.range 2,
        (max (getD2 [[1, -2]] i j) 0 - getD2 [[1, -2]] i j * getD2 [[1, 0]] i j
          + Real.log (1 + Real.exp (-|getD2 [[1, -2]] i j|)))) /
        (((1:ℕ) : ℝ) * ((2:ℕ) : ℝ)) :=
  stableBCELoss_eq_mean [[1, -2]] [[1, 0]] 1 2 (by simp) (by simp)
    (by simp) (by simp)

/-! ## C5: the stable per-element loss equals the direct cross-entropy -/

/-- C5: for every real logit x and target t, the per-element stable loss equals
    -t*log(sigmoid x) - (1-t)*log(1 - sigmoid x); both log arguments are
    strictly positive, so every quantity involved is a (finite) real number. -/
theorem stableBCEElem_eq_naive (x t : ℝ) :
    0 < sigmoid x ∧ sigmoid x < 1 ∧ stableBCEElem x t = naiveBCEElem x t := by
  have hE : (0:ℝ) < Real.exp (-x) := Real.exp_pos _
  have hD : (0:ℝ) < 1 + Real.exp (-x) := by linarith
  have hs0 : 0 < sigmoid x := by
    rw [sigmoid]
    positivity
  have hs1 : sigmoid x < 1 := by
    rw [sigmoid, div_lt_one hD]
    linarith
  refine ⟨hs0, hs1, ?_⟩
  have hlogs : Real.log (sigmoid x) = -Real.log (1 + Real.exp (-x)) := by
    rw [sigmoid, one_div, Real.log_inv]
  have h1s : 1 - sigmoid x = Real.exp (-x) / (1 + Real.exp (-x)) := by
    rw [sigmoid]
    field_simp
  have hlog1s : Real.log (1 - sigmoid x) = -x - Real.log (1 + Real.exp (-x)) := by
    rw [h1s, Real.log_div (ne_of_gt hE) (ne_of_gt hD), Real.log_exp]
  rw [naiveBCEElem, hlogs, hlog1s, stableBCEElem, clampMin]
  rcases le_or_lt 0 x with hx | hx
  · rw [max_eq_left hx, abs_of_nonneg hx]
    ring
  · rw [max_eq_right (le_of_lt hx), abs_of_neg hx, neg_neg]
    have hswap : Real.log (1 + Real.exp x) = x + Real.log (1 + Real.exp (-x)) := by
      have hprod : 1 + Real.exp x = Real.exp x * (1 + Real.exp (-x)) := by
        rw [mul_add, mul_one, ← Real.exp_add]
        simp [add_comm]
      rw [hprod, Real.log_mul (ne_of_gt (Real.exp_pos x)) (ne_of_gt hD), Real.log_exp]
    rw [hswap]
    ring

/-! ## C7: reshape-and-stack (model.py lines 55-61) -/

/-- embed.view(-1, W, H) for one embedding vector of length W*H (model.py lines
    59-60): row-major reshape into W rows of H entries; row i holds the slice
    [i*H, (i+1)*H). -/
noncomputable def reshapeWH (v : List ℝ) (w h : ℕ) : List (List ℝ) :=
  (List.range w).map (fun i => (List.range h).map (fun j => v.getD (i * h + j) 0))

/-- conv_input = torch.cat([embed_s, embed_r], dim=1).unsqueeze(1) (model.py
    line 61), per batch element: concatenate the two (W, H) grids along the W
    axis and add a singleton channel dimension. -/
noncomputable def reshapeAndStack (ss rs : List (List ℝ)) (w h : ℕ) :
    List (List (List (List ℝ))) :=
  (ss.zip rs).map (fun p => [reshapeWH p.1 w h ++ reshapeWH p.2 w h])

/-- C7: for every batch of subject/relation embeddings of matching batch size
    B ≥ 1, the stacked input has shape (B, 1, 2W, H); each embedding is
    reshaped row-major, so grid entry (i, j) is vector entry i*H + j. -/
theorem reshapeAndStack_shape (ss rs : List (List ℝ)) (w h B : ℕ)
    (hss : ss.length = B) (hrs : rs.length = B) (_hB : 1 ≤ B) :
    (reshapeAndStack ss rs w h).length = B ∧
    (∀ img ∈ reshapeAndStack ss rs w h, img.length = 1 ∧
      ∀ ch ∈ img, ch.length = 2 * w ∧ ∀ row ∈ ch, row.length = h) ∧
    (∀ v : List ℝ, ∀ i j : ℕ, i < w → j < h →
      ((reshapeWH v w h).getD i []).getD j 0 = v.getD (i * h + j) 0) := by
  refine ⟨?_, ?_, ?_⟩
  · rw [reshapeAndStack, List.length_map, List.length_zip, hss, hrs, min_self]
  · intro img himg
    rw [reshapeAndStack, List.mem_map] at himg
    obtain ⟨p, _, rfl⟩ := himg
    refine ⟨rfl, ?_⟩
    intro ch hch
    rw [List.mem_singleton] at hch
    subst hch
    constructor
    · simp only [List.length_append, reshapeWH, List.length_map, List.length_range]
      omega
    · intro row hrow
      rcases List.mem_append.mp hrow with hmem | hmem <;>
      · rw [reshapeWH, List.mem_map] at hmem
        obtain ⟨i, _, rfl⟩ := hmem
        rw [List.length_map, List.length_range]
  · intro v i j hi hj
    have hi' : i < ((List.range w).map
        (fun i => (List.range h).map (fun j => v.getD (i * h + j) 0))).length := by
      rw [List.length_map, List.length_range]
      exact hi
    rw [reshapeWH, List.getD_eq_getElem _ _ hi', List.getElem_map, List.getElem_range]
    have hj' : j < ((List.range h).map (fun j' => v.getD (i * h + j') 0)).length := by
      rw [List.length_map, List.length_range]
      exact hj
    rw [List.getD_eq_getElem _ _ hj', List.getElem_map, List.getElem_range]

/-- C7 witness: batch of one, W = 1, H = 2. -/
theorem reshapeAndStack_shape_witness :
    (reshapeAndStack [[1, 2]] [[3, 4]] 1 2).length = 1 ∧
    ((reshapeWH [(5:ℝ), 6] 1 2).getD 0 []).getD 1 0 = ([(5:ℝ), 6]).getD (0 * 2 + 1) 0 := by
  obtain ⟨h1, _, h3⟩ := reshapeAndStack_shape [[1, 2]] [[3, 4]] 1 2 1
    (by simp) (by simp) (by omega)
  exact ⟨h1, h3 [5, 6] 0 1 (by omega) (by omega)⟩

/-! ## C8: depthwise-separable convolution shapes (model.py 12-21, 35-53) -/

/-- A square-kernel 2-D convolution with no padding (stride 1), as configured by
    DSConv2d(in_channels=1, ..., padding=0) for the depthwise stage applied to
    one channel (model.py line 15 with model.py line 43). -/
noncomputable def conv2dValid (ker img : List (List ℝ)) : List (List ℝ) :=
  (List.range (img.length + 1 - ker.length)).map (fun i =>
    (List.range ((img.headD []).length + 1 - (ker.headD []).length)).map (fun j =>
      ((List.range ker.length).map (fun a =>
        ((List.range (ker.headD []).length).map (fun b =>
          (ker.getD a []).getD b 0 * (img.getD (i + a) []).getD (j + b) 0)).sum)).sum))

/-- The depthwise stage (groups = in_channels): one independent kernel per input
    channel (model.py line 15). -/
noncomputable def depthwise (kers : List (List (List ℝ))) (x : List (List (List ℝ))) :
    List (List (List ℝ)) :=
  List.zipWith conv2dValid kers x

/-- The pointwise 1×1 stage expanding to out_channels channels (model.py line
    16): out[o][i][j] = Σ_c weights[o][c] * in[c][i][j]. -/
noncomputable def pointwise (weights : List (List ℝ)) (x : List (List (List ℝ))) :
    List (List (List ℝ)) :=
  weights.map (fun wrow =>
    (List.range (x.headD []).length).map (fun i =>
      (List.range ((x.headD []).headD []).length).map (fun j =>
        (List.zipWith (fun a c => a * ((c.getD i []).getD j 0)) wrow x).sum)))

/-- DSConv2d.forward (model.py lines 18-21): depthwise then pointwise. -/
noncomputable def dsconvForward (kers : List (List (List ℝ))) (weights : List (List ℝ))
    (x : List (List (List ℝ))) : List (List (List ℝ)) :=
  pointwise weights (depthwise kers x)

/-- flattened_size computed in DSConvE.__init__ (model.py lines 35-36); it is
    the in_features of the nn.Linear projection back to H*W (model.py line 49). -/
def flattenedSize (w h k c : ℕ) : ℕ := (w * 2 - k + 1) * (h - k + 1) * c

/-- Flatten module (model.py lines 6-10): all feature-map channels of one batch
    element into a single vector. -/
noncomputable def flattenChannels (x : List (List (List ℝ))) : List ℝ :=
  (x.map List.flatten).flatten

theorem headD_map_range (f : ℕ → List ℝ) (n : ℕ) (hn : 0 < n) :
    ((List.range n).map f).headD [] = f 0 := by
  cases n with
  | zero => omega
  | succ m =>
    rw [List.range_succ_eq_map]
    simp

theorem sum_map_const {β : Type} (l : List β) (n : ℕ) :
    (l.map (fun _ => n)).sum = l.length * n := by
  induction l with
  | nil => simp
  | cons a t ih =>
    rw [List.map_cons, List.sum_cons, ih, List.length_cons, Nat.succ_mul]
    omega

theorem flatten_grid_length (g : ℕ → ℕ → ℝ) (m n : ℕ) :
    ((List.range m).map (fun i => (List.range n).map (g i))).flatten.length = m * n := by
  rw [List.length_flatten, List.map_map]
  have h : ((List.range m).map (List.length ∘ fun i => (List.range n).map (g i))) =
      (List.range m).map (fun _ => n) := by
    apply List.map_congr_left
    intro a _
    simp
  rw [h, sum_map_const, List.length_range]

/-- C8: for an input image of shape (1, 2W, H), a k×k depthwise kernel with no
    padding followed by the pointwise 1×1 expansion to C channels yields a
    feature map of C channels of spatial size (2W-k+1, H-k+1), and its
    flattened length equals flattened_size, the in_features of the linear
    projection back to H*W configured in DSConvE.__init__. -/
theorem dsconvForward_shape (img ker : List (List ℝ)) (weights : List (List ℝ))
    (w h k c : ℕ)
    (himg : img.length = 2 * w) (hrow : ∀ row ∈ img, row.length = h)
    (hker : ker.length = k) (hkrow : ∀ row ∈ ker, row.length = k)
    (hwt : weights.length = c)
    (hk1 : 1 ≤ k) (hkh : k ≤ h) (hkw : k ≤ 2 * w) (hw1 : 1 ≤ w) :
    (dsconvForward [ker] weights [img]).length = c ∧
    (∀ ch ∈ dsconvForward [ker] weights [img],
      ch.length = 2 * w - k + 1 ∧ ∀ row ∈ ch, row.length = h - k + 1) ∧
    (flattenChannels (dsconvForward [ker] weights [img])).length =
      flattenedSize w h k c := by
  have himgHead : (img.headD []).length = h := by
    cases img with
    | nil => simp at himg; omega
    | cons r t => exact hrow r (List.mem_cons_self _ _)
  have hkerHead : (ker.headD []).length = k := by
    cases ker with
    | nil => simp at hker; omega
    | cons r t => exact hkrow r (List.mem_cons_self _ _)
  have hdw : depthwise [ker] [img] = [conv2dValid ker img] := rfl
  have hconvlen : (conv2dValid ker img).length = 2 * w - k + 1 := by
    rw [conv2dValid, List.length_map, List.length_range, himg, hker]
    omega
  have hconvwidth : (img.headD []).length + 1 - (ker.headD []).length = h - k + 1 := by
    rw [himgHead, hkerHead]
    omega
  have hconvHead : ((conv2dValid ker img).headD []).length = h - k + 1 := by
    rw [conv2dValid, headD_map_range _ _ (by rw [himg, hker]; omega),
      List.length_map, List.length_range, hconvwidth]
  have hout : dsconvForward [ker] weights [img] =
      pointwise weights [conv2dValid ker img] := by
    rw [dsconvForward, hdw]
  refine ⟨?_, ?_, ?_⟩
  · rw [hout, pointwise, List.length_map, hwt]
  · intro ch hch
    rw [hout, pointwise, List.mem_map] at hch
    obtain ⟨wrow, _, rfl⟩ := hch
    constructor
    · rw [List.length_map, List.length_range]
      exact hconvlen
    · intro row hrowm
      rw [List.mem_map] at hrowm
      obtain ⟨i, _, rfl⟩ := hrowm
      rw [List.length_map, List.length_range]
      exact hconvHead
  · rw [hout, flattenChannels, List.length_flatten, List.map_map, pointwise,
      List.map_map]
    have hmapc : weights.map
        ((List.length ∘ List.flatten) ∘ fun wrow =>
          (List.range (([conv2dValid ker img]).headD []).length).map (fun i =>
            (List.range ((([conv2dValid ker img]).headD []).headD []).length).map (fun j =>
              (List.zipWith (fun a c' => a * ((c'.getD i []).getD j 0))
                wrow [conv2dValid ker img]).sum))) =
        weights.map (fun _ => ((2 * w - k + 1) * (h - k + 1))) := by
      apply List.map_congr_left
      intro wrow _
      have := flatten_grid_length
        (fun i j => (List.zipWith (fun a c' => a * ((c'.getD i []).getD j 0))
          wrow [conv2dValid ker img]).sum)
        (([conv2dValid ker img]).headD []).length
        ((([conv2dValid ker img]).headD []).headD []).length
      simp only [Function.comp_apply]
      rw [this]
      rw [show ([conv2dValid ker img]).headD [] = conv2dValid ker img from rfl,
        hconvlen, hconvHead]
    rw [hmapc, sum_map_const, hwt, flattenedSize]
    have h2w : w * 2 - k + 1 = 2 * w - k + 1 := by omega
    rw [h2w]
    ring

/-- C8 witness: a 2×2 input image (W = 1, H = 2) with a 1×1 kernel and one
    output channel. -/
theorem dsconvForward_shape_witness :
    (dsconvForward [[[1]]] [[1]] [[[1, 2], [3, 4]]]).length = 1 ∧
    (flattenChannels (dsconvForward [[[1]]] [[1]] [[[1, 2], [3, 4]]])).length =
      flattenedSize 1 2 1 1 := by
  obtain ⟨h1, _, h3⟩ := dsconvForward_shape [[1, 2], [3, 4]] [[1]] [[1]] 1 2 1 1
    (by simp) (by simp) (by simp) (by simp) (by simp)
    (by omega) (by omega) (by omega) (by omega)
  exact ⟨h1, h3⟩
